import Mathlib

/-
Verification development for the GoCache repository: a shallow embedding of
the LRU engine (lru/lru.go), the consistent-hash ring
(consistenthash/consistenthash.go), the Group orchestrator and single-flight
coalescer (byteview / gocache / singleflight sources), and the Server
(grpc.go), together with theorems settling the behavioural claims about them.

Modelling conventions:
- Go `time.Time` instants are modelled as `Nat` seconds; the zero value of
  `time.Time` (the "never expires" sentinel, tested with `IsZero`) is the
  number `0`.
- Go byte slices are modelled by `Slice`: the payload together with an
  allocation identifier `sid`, so that "the same backing array" (aliasing)
  versus "a fresh copy" (what Go's `cloneBytes` produces) is observable in
  the model.  `cloneBytes` consumes a fresh identifier.
- Go `int64` byte counters are modelled as `Int` (the counters never approach
  2^63 for the inputs in question, so wrap-around is irrelevant); `uint32`
  hash values are modelled as `Nat`.
- Go maps are modelled as association lists with last-write-wins update
  (`assocSet`), deletion of every binding of the key (`assocDel`) and lookup
  (`assocGet`); a missing key yields `none` (Go's zero value).
-/

/-- Allocation-tagged byte slice: `data` is the payload (byte values), `sid`
identifies the backing array, so that aliasing is observable. -/
structure Slice where
  sid : Nat
  data : List Nat
deriving Repr, DecidableEq

/-- ByteView of byteview.go: immutable view `(b, e)` of bytes plus expiry. -/
structure ByteView where
  b : Slice
  e : Nat
deriving Repr, DecidableEq

/-- Len of byteview.go: length of the payload. -/
def ByteView.len (v : ByteView) : Nat := v.b.data.length

/-- Expire of byteview.go. -/
def ByteView.expire (v : ByteView) : Nat := v.e

/-- cloneBytes of byteview.go: allocates a new backing array (modelled by the
fresh identifier `fresh`) and copies the payload. -/
def cloneBytes (fresh : Nat) (b : Slice) : Slice := ⟨fresh, b.data⟩

/-- Association-list lookup, modelling Go map read (`m[k]`, missing = none). -/
def assocGet {κ α : Type} [DecidableEq κ] : List (κ × α) → κ → Option α
  | [], _ => none
  | (k, v) :: rest, key => if k = key then some v else assocGet rest key

/-- Association-list update, modelling Go map write (`m[k] = v`). -/
def assocSet {κ α : Type} [DecidableEq κ] : List (κ × α) → κ → α → List (κ × α)
  | [], key, v => [(key, v)]
  | (k, w) :: rest, key, v =>
      if k = key then (key, v) :: rest else (k, w) :: assocSet rest key v

/-- Association-list deletion, modelling Go `delete(m, k)`. -/
def assocDel {κ α : Type} [DecidableEq κ] : List (κ × α) → κ → List (κ × α)
  | [], _ => []
  | (k, w) :: rest, key =>
      if k = key then assocDel rest key else (k, w) :: assocDel rest key

theorem assocGet_assocSet_self {κ α : Type} [DecidableEq κ]
    (m : List (κ × α)) (k : κ) (v : α) : assocGet (assocSet m k v) k = some v := by
  induction m with
  | nil => simp [assocSet, assocGet]
  | cons hd tl ih =>
      obtain ⟨k0, v0⟩ := hd
      by_cases h : k0 = k <;> simp [assocSet, assocGet, h, ih]

theorem assocGet_assocDel_self {κ α : Type} [DecidableEq κ]
    (m : List (κ × α)) (k : κ) : assocGet (assocDel m k) k = none := by
  induction m with
  | nil => simp [assocDel, assocGet]
  | cons hd tl ih =>
      obtain ⟨k0, v0⟩ := hd
      by_cases h : k0 = k <;> simp [assocDel, assocGet, h, ih]

/-
LRU engine, lru/lru.go.  The Go engine keeps a doubly linked list (`ll`,
front = most recently used) and a map from key to list node; the map always
holds exactly the keys of the list, so the model keeps a single list of
entries, ordered OLDEST FIRST (the head is the back of the Go list, the last
element is the Go front).  The engine is generic over the stored `Value`
interface; the model is generic over `V` with an explicit length function
`vlen` standing for the interface method `Len()`.  `len(key)` (Go byte
length) is modelled by `String.utf8ByteSize`.
-/

/-- entry of lru/lru.go: `(key, value, expire)`; `expire = 0` models the zero
`time.Time` ("never expires"). -/
structure Entry (V : Type) where
  key : String
  value : V
  expire : Nat
deriving Repr, DecidableEq

/-- Size charged to an entry: `len(key) + value.Len()` as in lru.go. -/
def entrySize {V : Type} (vlen : V → Nat) (e : Entry V) : Int :=
  (e.key.utf8ByteSize : Int) + (vlen e.value : Int)

/-- Total bytes of a list of entries. -/
def sumBytes {V : Type} (vlen : V → Nat) : List (Entry V) → Int
  | [] => 0
  | e :: es => entrySize vlen e + sumBytes vlen es

/-- Lookup of the map `c.cache[key]` (unique key, returns the entry). -/
def lookupEntry {V : Type} : List (Entry V) → String → Option (Entry V)
  | [], _ => none
  | e :: es, k => if e.key = k then some e else lookupEntry es k

/-- Removal of the node holding `key` from the list (list remove + map
delete as in removeElement). -/
def eraseKey {V : Type} : List (Entry V) → String → List (Entry V)
  | [], _ => []
  | e :: es, k => if e.key = k then eraseKey es k else e :: eraseKey es k

/-- LRUCache of lru/lru.go.  `entries` is ordered oldest-first (head = Go
list back).  The `OnEvicted` callback is `nil` in every use of the engine in
this repository (cache.go calls `lru.New(c.cacheBytes, nil)`) and is
therefore not modelled; `Now` is injected as an explicit argument of `get`. -/
structure LRUCache (V : Type) where
  maxCapacity : Int
  curCapacity : Int
  entries : List (Entry V)
deriving Repr, DecidableEq

/-- New of lru/lru.go (with `OnEvicted = nil`). -/
def LRUCache.new {V : Type} (maxCapacity : Int) : LRUCache V :=
  ⟨maxCapacity, 0, []⟩

/-- removeElement applied to the back node: RemoveOldest of lru/lru.go
(no-op when empty). -/
def LRUCache.removeOldest {V : Type} (vlen : V → Nat) (c : LRUCache V) : LRUCache V :=
  match c.entries with
  | [] => c
  | e :: rest =>
      { c with entries := rest, curCapacity := c.curCapacity - entrySize vlen e }

/-- The eviction loop of Add: `for maxCapacity != 0 && maxCapacity <
curCapacity { RemoveOldest() }`.  On an empty list the Go loop would call the
no-op RemoveOldest forever; that state is unreachable from `New` (the byte
counter of an empty cache is 0), and the model simply stops there. -/
def evictLoop {V : Type} (vlen : V → Nat) (maxC : Int) :
    List (Entry V) → Int → List (Entry V) × Int
  | [], cur => ([], cur)
  | e :: rest, cur =>
      if maxC ≠ 0 ∧ maxC < cur then
        evictLoop vlen maxC rest (cur - entrySize vlen e)
      else (e :: rest, cur)

/-- Add of lru/lru.go: update value+expire and move to front when the key is
present (byte count adjusted by `value.Len() - old.Len()`), otherwise push a
new entry at the front (byte count grows by `len(key) + value.Len()`); then
drain excess bytes. -/
def LRUCache.add {V : Type} (vlen : V → Nat) (c : LRUCache V)
    (key : String) (value : V) (expire : Nat) : LRUCache V :=
  let inserted : List (Entry V) × Int :=
    match lookupEntry c.entries key with
    | some old =>
        (eraseKey c.entries key ++ [⟨key, value, expire⟩],
         c.curCapacity + (vlen value : Int) - (vlen old.value : Int))
    | none =>
        (c.entries ++ [⟨key, value, expire⟩],
         c.curCapacity + (key.utf8ByteSize : Int) + (vlen value : Int))
  let drained := evictLoop vlen c.maxCapacity inserted.fst inserted.snd
  { c with entries := drained.fst, curCapacity := drained.snd }

/-- Get of lru/lru.go: absent returns not-found; a present entry that is
expired (`expire ≠ 0 ∧ expire < now`, Go `!IsZero && Before(Now())`) is
removed via removeElement and reported not-found; otherwise the node moves to
the front and the value is returned. -/
def LRUCache.get {V : Type} (vlen : V → Nat) (c : LRUCache V)
    (key : String) (now : Nat) : Option V × LRUCache V :=
  match lookupEntry c.entries key with
  | none => (none, c)
  | some e =>
      if e.expire ≠ 0 ∧ e.expire < now then
        (none, { c with entries := eraseKey c.entries key,
                        curCapacity := c.curCapacity - entrySize vlen e })
      else
        (some e.value, { c with entries := eraseKey c.entries key ++ [e] })

/-- Len of lru/lru.go. -/
def LRUCache.lenEntries {V : Type} (c : LRUCache V) : Nat := c.entries.length

/-- Keys of a list of entries, in order (the key set of the Go map). -/
def keysOf {V : Type} (es : List (Entry V)) : List String := es.map (fun e => e.key)

theorem entrySize_nonneg {V : Type} (vlen : V → Nat) (e : Entry V) :
    0 ≤ entrySize vlen e := by
  unfold entrySize
  positivity

theorem sumBytes_append {V : Type} (vlen : V → Nat) (xs ys : List (Entry V)) :
    sumBytes vlen (xs ++ ys) = sumBytes vlen xs + sumBytes vlen ys := by
  induction xs with
  | nil => simp [sumBytes]
  | cons e es ih => simp [sumBytes, ih]; ring

theorem lookupEntry_key {V : Type} :
    ∀ (es : List (Entry V)) (k : String) (e : Entry V),
      lookupEntry es k = some e → e.key = k
  | [], _, _, h => by simp [lookupEntry] at h
  | a :: es, k, e, h => by
      rw [lookupEntry] at h
      by_cases hk : a.key = k
      · rw [if_pos hk] at h
        cases h
        exact hk
      · rw [if_neg hk] at h
        exact lookupEntry_key es k e h

theorem lookupEntry_eq_none_iff {V : Type} :
    ∀ (es : List (Entry V)) (k : String),
      lookupEntry es k = none ↔ k ∉ keysOf es
  | [], k => by simp [lookupEntry, keysOf]
  | a :: es, k => by
      rw [lookupEntry]
      by_cases hk : a.key = k
      · simp [hk, keysOf]
      · rw [if_neg hk, lookupEntry_eq_none_iff es k]
        unfold keysOf
        simp only [List.map_cons, List.mem_cons, not_or]
        constructor
        · intro h
          exact ⟨fun he => hk he.symm, h⟩
        · intro h
          exact h.2

theorem eraseKey_of_not_mem {V : Type} :
    ∀ (es : List (Entry V)) (k : String), k ∉ keysOf es → eraseKey es k = es
  | [], _, _ => rfl
  | a :: es, k, h => by
      have hk : a.key ≠ k := by
        intro he
        exact h (by simp [keysOf, he])
      have htl : k ∉ keysOf es := by
        intro hm
        exact h (by simp [keysOf] at hm ⊢; exact Or.inr hm)
      rw [eraseKey, if_neg hk, eraseKey_of_not_mem es k htl]

theorem lookupEntry_eraseKey_self {V : Type} :
    ∀ (es : List (Entry V)) (k : String), lookupEntry (eraseKey es k) k = none
  | [], _ => rfl
  | a :: es, k => by
      rw [eraseKey]
      by_cases hk : a.key = k
      · rw [if_pos hk]
        exact lookupEntry_eraseKey_self es k
      · rw [if_neg hk, lookupEntry, if_neg hk]
        exact lookupEntry_eraseKey_self es k

theorem keys_eraseKey_sublist {V : Type} :
    ∀ (es : List (Entry V)) (k : String),
      (keysOf (eraseKey es k)).Sublist (keysOf es)
  | [], _ => by simp [eraseKey, keysOf]
  | a :: es, k => by
      rw [eraseKey]
      by_cases hk : a.key = k
      · rw [if_pos hk]
        exact (keys_eraseKey_sublist es k).trans (by simp [keysOf])
      · rw [if_neg hk]
        simpa [keysOf] using (keys_eraseKey_sublist es k).cons₂ a.key

theorem sumBytes_eraseKey {V : Type} (vlen : V → Nat) :
    ∀ (es : List (Entry V)) (k : String) (e : Entry V),
      (keysOf es).Nodup → lookupEntry es k = some e →
      sumBytes vlen (eraseKey es k) = sumBytes vlen es - entrySize vlen e
  | [], _, _, _, h => by simp [lookupEntry] at h
  | a :: es, k, e, hnd, h => by
      have hnd2 : a.key ∉ keysOf es ∧ (keysOf es).Nodup := by
        simpa [keysOf] using hnd
      rw [lookupEntry] at h
      by_cases hk : a.key = k
      · rw [if_pos hk] at h
        cases h
        rw [eraseKey, if_pos hk, eraseKey_of_not_mem es k (hk ▸ hnd2.1), sumBytes]
        ring
      · rw [if_neg hk] at h
        rw [eraseKey, if_neg hk, sumBytes, sumBytes,
          sumBytes_eraseKey vlen es k e hnd2.2 h]
        ring

theorem lookupEntry_append_of_none {V : Type} :
    ∀ (es ys : List (Entry V)) (k : String),
      lookupEntry es k = none → lookupEntry (es ++ ys) k = lookupEntry ys k
  | [], ys, k, _ => rfl
  | a :: es, ys, k, h => by
      rw [List.cons_append, lookupEntry]
      rw [lookupEntry] at h
      by_cases hk : a.key = k
      · rw [if_pos hk] at h
        cases h
      · rw [if_neg hk] at h ⊢
        exact lookupEntry_append_of_none es ys k h

theorem nodup_append_single {α : Type} (xs : List α) (a : α)
    (h1 : xs.Nodup) (h2 : a ∉ xs) : (xs ++ [a]).Nodup := by
  simp [List.nodup_append, h1, h2]

theorem evictLoop_sublist {V : Type} (vlen : V → Nat) (maxC : Int) :
    ∀ (es : List (Entry V)) (cur : Int),
      (evictLoop vlen maxC es cur).fst.Sublist es
  | [], cur => by simp [evictLoop]
  | e :: rest, cur => by
      rw [evictLoop]
      by_cases hc : maxC ≠ 0 ∧ maxC < cur
      · rw [if_pos hc]
        exact (evictLoop_sublist vlen maxC rest _).cons e
      · rw [if_neg hc]

theorem evictLoop_sum {V : Type} (vlen : V → Nat) (maxC : Int) :
    ∀ (es : List (Entry V)) (cur : Int), cur = sumBytes vlen es →
      (evictLoop vlen maxC es cur).snd
        = sumBytes vlen (evictLoop vlen maxC es cur).fst
  | [], cur, h => by simpa [evictLoop, sumBytes] using h
  | e :: rest, cur, h => by
      rw [evictLoop]
      by_cases hc : maxC ≠ 0 ∧ maxC < cur
      · rw [if_pos hc]
        refine evictLoop_sum vlen maxC rest _ ?_
        rw [h, sumBytes]
        ring
      · rw [if_neg hc]
        exact h

theorem evictLoop_le {V : Type} (vlen : V → Nat) (maxC : Int) (hpos : 0 < maxC) :
    ∀ (es : List (Entry V)) (cur : Int), cur = sumBytes vlen es →
      (evictLoop vlen maxC es cur).snd ≤ maxC
  | [], cur, h => by
      rw [evictLoop]
      simp only [sumBytes] at h
      show cur ≤ maxC
      omega
  | e :: rest, cur, h => by
      rw [evictLoop]
      by_cases hc : maxC ≠ 0 ∧ maxC < cur
      · rw [if_pos hc]
        refine evictLoop_le vlen maxC hpos rest _ ?_
        rw [h, sumBytes]
        ring
      · rw [if_neg hc]
        show cur ≤ maxC
        omega

/-- State soundness of the engine: the byte counter agrees with the live
entries, and keys are unique (the Go map and list are in sync). -/
def goodState {V : Type} (vlen : V → Nat) (c : LRUCache V) : Prop :=
  c.curCapacity = sumBytes vlen c.entries ∧ (keysOf c.entries).Nodup


theorem LRUCache.add_of_none {V : Type} (vlen : V → Nat) (c : LRUCache V)
    (k : String) (v : V) (exp : Nat) (hl : lookupEntry c.entries k = none) :
    c.add vlen k v exp =
      { c with
        entries := (evictLoop vlen c.maxCapacity (c.entries ++ [⟨k, v, exp⟩])
          (c.curCapacity + (k.utf8ByteSize : Int) + (vlen v : Int))).fst,
        curCapacity := (evictLoop vlen c.maxCapacity (c.entries ++ [⟨k, v, exp⟩])
          (c.curCapacity + (k.utf8ByteSize : Int) + (vlen v : Int))).snd } := by
  unfold LRUCache.add
  rw [hl]

theorem LRUCache.add_of_some {V : Type} (vlen : V → Nat) (c : LRUCache V)
    (k : String) (v : V) (exp : Nat) (old : Entry V)
    (hl : lookupEntry c.entries k = some old) :
    c.add vlen k v exp =
      { c with
        entries := (evictLoop vlen c.maxCapacity (eraseKey c.entries k ++ [⟨k, v, exp⟩])
          (c.curCapacity + (vlen v : Int) - (vlen old.value : Int))).fst,
        curCapacity := (evictLoop vlen c.maxCapacity (eraseKey c.entries k ++ [⟨k, v, exp⟩])
          (c.curCapacity + (vlen v : Int) - (vlen old.value : Int))).snd } := by
  unfold LRUCache.add
  rw [hl]

theorem insert_sum_none {V : Type} (vlen : V → Nat) (c : LRUCache V)
    (k : String) (v : V) (exp : Nat)
    (hsum : c.curCapacity = sumBytes vlen c.entries) :
    c.curCapacity + (k.utf8ByteSize : Int) + (vlen v : Int)
      = sumBytes vlen (c.entries ++ [⟨k, v, exp⟩]) := by
  rw [sumBytes_append, hsum, sumBytes, sumBytes, entrySize]
  ring

theorem insert_sum_some {V : Type} (vlen : V → Nat) (c : LRUCache V)
    (k : String) (v : V) (exp : Nat) (old : Entry V)
    (hsum : c.curCapacity = sumBytes vlen c.entries)
    (hnd : (keysOf c.entries).Nodup)
    (hl : lookupEntry c.entries k = some old) :
    c.curCapacity + (vlen v : Int) - (vlen old.value : Int)
      = sumBytes vlen (eraseKey c.entries k ++ [⟨k, v, exp⟩]) := by
  have hk : old.key = k := lookupEntry_key c.entries k old hl
  rw [sumBytes_append, sumBytes_eraseKey vlen c.entries k old hnd hl, hsum,
    sumBytes, sumBytes, entrySize, entrySize, ← hk]
  ring

theorem insert_nodup_none {V : Type} (c : LRUCache V)
    (k : String) (v : V) (exp : Nat)
    (hnd : (keysOf c.entries).Nodup)
    (hl : lookupEntry c.entries k = none) :
    (keysOf (c.entries ++ [(⟨k, v, exp⟩ : Entry V)])).Nodup := by
  have hkn : k ∉ keysOf c.entries := (lookupEntry_eq_none_iff _ _).mp hl
  have := nodup_append_single (keysOf c.entries) k hnd hkn
  simpa [keysOf] using this

theorem insert_nodup_some {V : Type} (c : LRUCache V)
    (k : String) (v : V) (exp : Nat)
    (hnd : (keysOf c.entries).Nodup) :
    (keysOf (eraseKey c.entries k ++ [(⟨k, v, exp⟩ : Entry V)])).Nodup := by
  have hnd1 : (keysOf (eraseKey c.entries k)).Nodup :=
    List.Nodup.sublist (keys_eraseKey_sublist c.entries k) hnd
  have hkn : k ∉ keysOf (eraseKey c.entries k) :=
    (lookupEntry_eq_none_iff _ _).mp (lookupEntry_eraseKey_self c.entries k)
  have := nodup_append_single (keysOf (eraseKey c.entries k)) k hnd1 hkn
  simpa [keysOf] using this

theorem lruAdd_goodState {V : Type} (vlen : V → Nat) (c : LRUCache V)
    (k : String) (v : V) (exp : Nat)
    (h : goodState vlen c) : goodState vlen (c.add vlen k v exp) := by
  obtain ⟨hsum, hnd⟩ := h
  cases hl : lookupEntry c.entries k with
  | none =>
      rw [LRUCache.add_of_none vlen c k v exp hl]
      refine ⟨evictLoop_sum vlen c.maxCapacity _ _
        (insert_sum_none vlen c k v exp hsum), ?_⟩
      exact List.Nodup.sublist
        ((evictLoop_sublist vlen c.maxCapacity _ _).map _)
        (insert_nodup_none c k v exp hnd hl)
  | some old =>
      rw [LRUCache.add_of_some vlen c k v exp old hl]
      refine ⟨evictLoop_sum vlen c.maxCapacity _ _
        (insert_sum_some vlen c k v exp old hsum hnd hl), ?_⟩
      exact List.Nodup.sublist
        ((evictLoop_sublist vlen c.maxCapacity _ _).map _)
        (insert_nodup_some c k v exp hnd)

theorem lruAdd_le {V : Type} (vlen : V → Nat) (c : LRUCache V)
    (k : String) (v : V) (exp : Nat)
    (hpos : 0 < c.maxCapacity) (h : goodState vlen c) :
    (c.add vlen k v exp).curCapacity ≤ c.maxCapacity := by
  obtain ⟨hsum, hnd⟩ := h
  cases hl : lookupEntry c.entries k with
  | none =>
      rw [LRUCache.add_of_none vlen c k v exp hl]
      exact evictLoop_le vlen c.maxCapacity hpos _ _
        (insert_sum_none vlen c k v exp hsum)
  | some old =>
      rw [LRUCache.add_of_some vlen c k v exp old hl]
      exact evictLoop_le vlen c.maxCapacity hpos _ _
        (insert_sum_some vlen c k v exp old hsum hnd hl)

theorem lruAdd_maxCapacity {V : Type} (vlen : V → Nat) (c : LRUCache V)
    (k : String) (v : V) (exp : Nat) :
    (c.add vlen k v exp).maxCapacity = c.maxCapacity := by
  cases hl : lookupEntry c.entries k with
  | none => rw [LRUCache.add_of_none vlen c k v exp hl]
  | some old => rw [LRUCache.add_of_some vlen c k v exp old hl]

theorem LRUCache.get_of_none {V : Type} (vlen : V → Nat) (c : LRUCache V)
    (k : String) (now : Nat) (hl : lookupEntry c.entries k = none) :
    c.get vlen k now = (none, c) := by
  simp only [LRUCache.get, hl]

theorem LRUCache.get_of_expired {V : Type} (vlen : V → Nat) (c : LRUCache V)
    (k : String) (now : Nat) (e : Entry V)
    (hl : lookupEntry c.entries k = some e)
    (hexp : e.expire ≠ 0 ∧ e.expire < now) :
    c.get vlen k now =
      (none, { c with entries := eraseKey c.entries k,
                      curCapacity := c.curCapacity - entrySize vlen e }) := by
  simp only [LRUCache.get, hl]
  rw [if_pos hexp]

theorem LRUCache.get_of_live {V : Type} (vlen : V → Nat) (c : LRUCache V)
    (k : String) (now : Nat) (e : Entry V)
    (hl : lookupEntry c.entries k = some e)
    (hexp : ¬(e.expire ≠ 0 ∧ e.expire < now)) :
    c.get vlen k now =
      (some e.value, { c with entries := eraseKey c.entries k ++ [e] }) := by
  simp only [LRUCache.get, hl]
  rw [if_neg hexp]

theorem lruGet_goodState {V : Type} (vlen : V → Nat) (c : LRUCache V)
    (k : String) (now : Nat)
    (h : goodState vlen c) : goodState vlen ((c.get vlen k now).snd) := by
  obtain ⟨hsum, hnd⟩ := h
  cases hl : lookupEntry c.entries k with
  | none =>
      rw [LRUCache.get_of_none vlen c k now hl]
      exact ⟨hsum, hnd⟩
  | some e =>
      by_cases hexp : e.expire ≠ 0 ∧ e.expire < now
      · rw [LRUCache.get_of_expired vlen c k now e hl hexp]
        refine ⟨?_, List.Nodup.sublist (keys_eraseKey_sublist c.entries k) hnd⟩
        show c.curCapacity - entrySize vlen e = sumBytes vlen (eraseKey c.entries k)
        rw [sumBytes_eraseKey vlen c.entries k e hnd hl, hsum]
      · rw [LRUCache.get_of_live vlen c k now e hl hexp]
        have hk : e.key = k := lookupEntry_key c.entries k e hl
        refine ⟨?_, ?_⟩
        · show c.curCapacity = sumBytes vlen (eraseKey c.entries k ++ [e])
          rw [sumBytes_append, sumBytes_eraseKey vlen c.entries k e hnd hl, hsum,
            sumBytes, sumBytes]
          ring
        · show (keysOf (eraseKey c.entries k ++ [e])).Nodup
          have h2 := insert_nodup_some c k e.value e.expire hnd
          have he : (⟨k, e.value, e.expire⟩ : Entry V) = e := by
            cases e
            cases hk
            rfl
          rwa [he] at h2

theorem lruGet_le {V : Type} (vlen : V → Nat) (c : LRUCache V)
    (k : String) (now : Nat)
    (hb : c.curCapacity ≤ c.maxCapacity) :
    ((c.get vlen k now).snd).curCapacity ≤ ((c.get vlen k now).snd).maxCapacity := by
  cases hl : lookupEntry c.entries k with
  | none =>
      rw [LRUCache.get_of_none vlen c k now hl]
      exact hb
  | some e =>
      by_cases hexp : e.expire ≠ 0 ∧ e.expire < now
      · rw [LRUCache.get_of_expired vlen c k now e hl hexp]
        have := entrySize_nonneg vlen e
        show c.curCapacity - entrySize vlen e ≤ c.maxCapacity
        omega
      · rw [LRUCache.get_of_live vlen c k now e hl hexp]
        exact hb

theorem lruGet_maxCapacity {V : Type} (vlen : V → Nat) (c : LRUCache V)
    (k : String) (now : Nat) :
    ((c.get vlen k now).snd).maxCapacity = c.maxCapacity := by
  cases hl : lookupEntry c.entries k with
  | none => rw [LRUCache.get_of_none vlen c k now hl]
  | some e =>
      by_cases hexp : e.expire ≠ 0 ∧ e.expire < now
      · rw [LRUCache.get_of_expired vlen c k now e hl hexp]
      · rw [LRUCache.get_of_live vlen c k now e hl hexp]

theorem lruRemoveOldest_goodState {V : Type} (vlen : V → Nat) (c : LRUCache V)
    (h : goodState vlen c) : goodState vlen (c.removeOldest vlen) := by
  obtain ⟨hsum, hnd⟩ := h
  unfold LRUCache.removeOldest
  cases he : c.entries with
  | nil => exact ⟨hsum, hnd⟩
  | cons e rest =>
      rw [he] at hsum hnd
      rw [sumBytes] at hsum
      refine ⟨by rw [hsum]; ring, ?_⟩
      simp only [keysOf, List.map_cons, List.nodup_cons] at hnd
      exact hnd.2

theorem lruRemoveOldest_le {V : Type} (vlen : V → Nat) (c : LRUCache V)
    (hb : c.curCapacity ≤ c.maxCapacity) :
    (c.removeOldest vlen).curCapacity ≤ (c.removeOldest vlen).maxCapacity := by
  unfold LRUCache.removeOldest
  cases he : c.entries with
  | nil => exact hb
  | cons e rest =>
      have := entrySize_nonneg vlen e
      show c.curCapacity - entrySize vlen e ≤ c.maxCapacity
      omega

theorem lruRemoveOldest_maxCapacity {V : Type} (vlen : V → Nat) (c : LRUCache V) :
    (c.removeOldest vlen).maxCapacity = c.maxCapacity := by
  unfold LRUCache.removeOldest
  cases he : c.entries with
  | nil => rfl
  | cons e rest => rfl

/-- One public engine operation (the operations the claims range over). -/
inductive LruOp (V : Type) where
  | addOp (key : String) (value : V) (expire : Nat)
  | getOp (key : String) (now : Nat)
  | removeOldestOp
deriving Repr, DecidableEq

/-- Effect of one public operation on the engine state. -/
def applyOp {V : Type} (vlen : V → Nat) (c : LRUCache V) : LruOp V → LRUCache V
  | .addOp k v e => c.add vlen k v e
  | .getOp k now => (c.get vlen k now).snd
  | .removeOldestOp => c.removeOldest vlen

/-- Effect of a finite sequence of public operations. -/
def runOps {V : Type} (vlen : V → Nat) (c : LRUCache V) : List (LruOp V) → LRUCache V
  | [] => c
  | op :: ops => runOps vlen (applyOp vlen c op) ops

/-- The inductive invariant: the capacity limit is fixed, the byte counter
matches the live entries with unique keys, and (for a positive limit) the
counter is within the limit. -/
def invariantLRU {V : Type} (vlen : V → Nat) (maxC : Int) (c : LRUCache V) : Prop :=
  c.maxCapacity = maxC ∧ goodState vlen c ∧ (0 < maxC → c.curCapacity ≤ maxC)

theorem applyOp_invariant {V : Type} (vlen : V → Nat) (maxC : Int)
    (c : LRUCache V) (op : LruOp V)
    (h : invariantLRU vlen maxC c) : invariantLRU vlen maxC (applyOp vlen c op) := by
  obtain ⟨hm, hg, hb⟩ := h
  cases op with
  | addOp k v e =>
      refine ⟨by rw [applyOp, lruAdd_maxCapacity, hm], lruAdd_goodState vlen c k v e hg, ?_⟩
      intro hpos
      have := lruAdd_le vlen c k v e (by omega) hg
      rw [applyOp]
      omega
  | getOp k now =>
      refine ⟨by rw [applyOp, lruGet_maxCapacity, hm], lruGet_goodState vlen c k now hg, ?_⟩
      intro hpos
      have h1 := lruGet_le vlen c k now (by have := hb hpos; omega)
      have h2 := lruGet_maxCapacity vlen c k now
      rw [applyOp]
      omega
  | removeOldestOp =>
      refine ⟨by rw [applyOp, lruRemoveOldest_maxCapacity, hm],
        lruRemoveOldest_goodState vlen c hg, ?_⟩
      intro hpos
      have h1 := lruRemoveOldest_le vlen c (by have := hb hpos; omega)
      have h2 := lruRemoveOldest_maxCapacity vlen c
      rw [applyOp]
      omega

theorem runOps_invariant {V : Type} (vlen : V → Nat) (maxC : Int) :
    ∀ (ops : List (LruOp V)) (c : LRUCache V),
      invariantLRU vlen maxC c → invariantLRU vlen maxC (runOps vlen c ops)
  | [], c, h => h
  | op :: ops, c, h =>
      runOps_invariant vlen maxC ops (applyOp vlen c op) (applyOp_invariant vlen maxC c op h)

/-- C2: For every LRU engine with maxBytes > 0 and every finite sequence of
Add/Get/RemoveOldest operations starting from a fresh engine, after each
public operation returns, the byte counter curBytes equals the sum over live
entries of len(key) + value.len and curBytes ≤ maxBytes; when maxBytes = 0
only the sum equality holds (capacity unbounded).  Stated for the state after
an arbitrary operation sequence, which covers every intermediate state since
the sequence is universally quantified. -/
theorem lru_byte_counter_invariant {V : Type} (vlen : V → Nat) (maxC : Int)
    (hmax : 0 ≤ maxC) (ops : List (LruOp V)) :
    (runOps vlen (LRUCache.new maxC) ops).curCapacity
        = sumBytes vlen (runOps vlen (LRUCache.new maxC) ops).entries
      ∧ (0 < maxC → (runOps vlen (LRUCache.new maxC) ops).curCapacity ≤ maxC) := by
  have base : invariantLRU vlen maxC (LRUCache.new maxC) := by
    refine ⟨rfl, ⟨rfl, by simp [LRUCache.new, keysOf]⟩, fun hpos => ?_⟩
    show (0 : Int) ≤ maxC
    omega
  have h := runOps_invariant vlen maxC ops (LRUCache.new maxC) base
  exact ⟨h.2.1.1, h.2.2⟩

/-- Witness for C2 at a concrete engine (maxBytes = 10) and a concrete
operation sequence. -/
theorem lru_byte_counter_invariant_witness :
    (runOps String.utf8ByteSize (LRUCache.new 10)
        [LruOp.addOp "a" "1" 0, LruOp.addOp "b" "22" 0,
         LruOp.getOp "a" 5, LruOp.removeOldestOp]).curCapacity
        = sumBytes String.utf8ByteSize
            (runOps String.utf8ByteSize (LRUCache.new 10)
              [LruOp.addOp "a" "1" 0, LruOp.addOp "b" "22" 0,
               LruOp.getOp "a" 5, LruOp.removeOldestOp]).entries
      ∧ ((0 : Int) < 10 →
          (runOps String.utf8ByteSize (LRUCache.new 10)
            [LruOp.addOp "a" "1" 0, LruOp.addOp "b" "22" 0,
             LruOp.getOp "a" 5, LruOp.removeOldestOp]).curCapacity ≤ 10) :=
  lru_byte_counter_invariant String.utf8ByteSize 10 (by norm_num)
    [LruOp.addOp "a" "1" 0, LruOp.addOp "b" "22" 0,
     LruOp.getOp "a" 5, LruOp.removeOldestOp]

/-
Scenario S1 of the specification (claim C3), run on the engine as written:
maxBytes = 10, values are strings with byte-length sizes, expire = never.
-/

def s1Step1 : LRUCache String :=
  LRUCache.add String.utf8ByteSize (LRUCache.new 10) "a" "1" 0

def s1Step2 : LRUCache String :=
  LRUCache.add String.utf8ByteSize s1Step1 "b" "22" 0

def s1Step3 : LRUCache String :=
  LRUCache.add String.utf8ByteSize s1Step2 "c" "333" 0

def s1Step4 : LRUCache String :=
  LRUCache.add String.utf8ByteSize s1Step3 "d" "4444" 0

/-- C3 counterexample: the claim says Add("d","4444") brings the size from 12
down to 10 and evicts exactly the oldest entry "a".  On the code, inserting
"d" raises the byte counter from 9 to 14 (entry size 1+4=5), and the eviction
loop must remove BOTH "a" (size 2, 14→12) and "b" (size 3, 12→9) before the
counter fits under 10: the final size is 9, not 10, and "b" is gone too. -/
theorem lru_s1_counterexample :
    s1Step4.curCapacity = 9
      ∧ lookupEntry s1Step4.entries "a" = none
      ∧ lookupEntry s1Step4.entries "b" = none := by
  decide

/-- C3 amended: sizes after the first three Adds are 2, 5, 9 as claimed; the
fourth Add("d","4444") raises the size to 14 and evicts the two oldest
entries "a" and "b" (in age order), leaving entries ["c", "d"] and size 9. -/
theorem lru_s1_amended :
    s1Step1.curCapacity = 2
      ∧ s1Step2.curCapacity = 5
      ∧ s1Step3.curCapacity = 9
      ∧ s1Step4.curCapacity = 9
      ∧ keysOf s1Step4.entries = ["c", "d"] := by
  decide

/-- C4: on the engine, a Get(k) that follows an Add(k, v, expire) whose
expiry lies strictly in the future of the injected clock returns (v, true),
provided the Add's own eviction loop did not evict k ("no intervening
evictions", expressed as: the entry for k is still present after the Add).
An Add(k, v, expire) with expire in the past (nonzero and before now)
followed by Get(k) returns not-found and removes the entry: the entry is
gone from the engine, a second Get still misses, and the byte counter again
equals the sum over the remaining live entries, so the removed entry no
longer counts toward curBytes. -/
theorem lru_ttl_get {V : Type} (vlen : V → Nat) (c : LRUCache V)
    (k : String) (v : V) (now expF expP : Nat)
    (hg : goodState vlen c)
    (hF : lookupEntry ((c.add vlen k v expF).entries) k = some ⟨k, v, expF⟩)
    (hfut : now < expF)
    (hP : lookupEntry ((c.add vlen k v expP).entries) k = some ⟨k, v, expP⟩)
    (hpast : expP ≠ 0 ∧ expP < now) :
    (((c.add vlen k v expF).get vlen k now).fst = some v)
      ∧ (((c.add vlen k v expP).get vlen k now).fst = none)
      ∧ lookupEntry (((c.add vlen k v expP).get vlen k now).snd).entries k = none
      ∧ ((((c.add vlen k v expP).get vlen k now).snd).get vlen k now).fst = none
      ∧ (((c.add vlen k v expP).get vlen k now).snd).curCapacity
          = sumBytes vlen (((c.add vlen k v expP).get vlen k now).snd).entries := by
  have hlive : ¬((⟨k, v, expF⟩ : Entry V).expire ≠ 0 ∧ (⟨k, v, expF⟩ : Entry V).expire < now) := by
    intro hx
    exact absurd hx.2 (by simp; omega)
  have hexp : (⟨k, v, expP⟩ : Entry V).expire ≠ 0 ∧ (⟨k, v, expP⟩ : Entry V).expire < now := by
    simpa using hpast
  refine ⟨?_, ?_, ?_, ?_, ?_⟩
  · rw [LRUCache.get_of_live vlen _ k now _ hF hlive]
  · rw [LRUCache.get_of_expired vlen _ k now _ hP hexp]
  · rw [LRUCache.get_of_expired vlen _ k now _ hP hexp]
    exact lookupEntry_eraseKey_self _ k
  · rw [LRUCache.get_of_expired vlen _ k now _ hP hexp]
    rw [LRUCache.get_of_none vlen _ k now (lookupEntry_eraseKey_self _ k)]
  · have h1 := lruGet_goodState vlen (c.add vlen k v expP) k now
      (lruAdd_goodState vlen c k v expP hg)
    exact h1.1

/-- Witness for C4: a fresh unbounded engine, key "k", value "v", clock at 6,
future expiry 7, past expiry 5. -/
theorem lru_ttl_get_witness :
    (((LRUCache.new 0).add String.utf8ByteSize "k" "v" 7).get String.utf8ByteSize "k" 6).fst = some "v"
      ∧ ((((LRUCache.new 0).add String.utf8ByteSize "k" "v" 5).get String.utf8ByteSize "k" 6).fst = none)
      ∧ lookupEntry ((((LRUCache.new 0).add String.utf8ByteSize "k" "v" 5).get String.utf8ByteSize "k" 6).snd).entries "k" = none
      ∧ (((((LRUCache.new 0).add String.utf8ByteSize "k" "v" 5).get String.utf8ByteSize "k" 6).snd).get String.utf8ByteSize "k" 6).fst = none
      ∧ ((((LRUCache.new 0).add String.utf8ByteSize "k" "v" 5).get String.utf8ByteSize "k" 6).snd).curCapacity
          = sumBytes String.utf8ByteSize
              ((((LRUCache.new 0).add String.utf8ByteSize "k" "v" 5).get String.utf8ByteSize "k" 6).snd).entries :=
  lru_ttl_get String.utf8ByteSize (LRUCache.new 0) "k" "v" 6 7 5
    ⟨by decide, by decide⟩ (by decide) (by decide) (by decide) ⟨by decide, by decide⟩

/-
Consistent-hash ring, consistenthash/consistenthash.go.  Hash values are
uint32 in Go (then widened to int); they are modelled as Nat.  Go's
`sort.Search` is specified to return the smallest index in [0, n) at which
the (monotone) predicate holds, or n when none does; on the sorted ring the
predicate `ring[i] >= hash` is monotone, so the binary search is embedded as
the least-index linear scan `searchGE`.
-/

/-- consistenthash.Map: hash function, virtual-node multiplier, ring of
virtual-node hashes, and the map from virtual hash to real peer key. -/
structure consistenthash.Map where
  hash : String → Nat
  replicas : Nat
  ring : List Nat
  hashMap : List (Nat × String)

/-- consistenthash.New.  Go substitutes crc32.ChecksumIEEE when the supplied
function is nil; the model always receives the function explicitly (the
claims exercise only injected hash functions). -/
def consistenthash.New (replicas : Nat) (fn : String → Nat) : consistenthash.Map :=
  ⟨fn, replicas, [], []⟩

/-- Inner loop of Add for one key: for each i in [0, replicas), append
`hash(itoa(i) + key)` to the ring and map that virtual hash to the key
(later insertions overwrite, as for a Go map). -/
def consistenthash.Map.addKey (m : consistenthash.Map) (key : String) : consistenthash.Map :=
  (List.range m.replicas).foldl
    (fun mm i =>
      { mm with
        ring := mm.ring ++ [mm.hash (toString i ++ key)],
        hashMap := assocSet mm.hashMap (mm.hash (toString i ++ key)) key })
    m

/-- consistenthash.Map.Add: add every key's virtual nodes, then sort the
ring ascending (sort.Ints). -/
def consistenthash.Map.Add (m : consistenthash.Map) (keys : List String) : consistenthash.Map :=
  let m2 := keys.foldl (fun mm key => mm.addKey key) m
  { m2 with ring := List.insertionSort (· ≤ ·) m2.ring }

/-- Embedding of `sort.Search(len(ring), func(i) { return ring[i] >= hash })`:
least index whose element is ≥ hv, or the length when there is none. -/
def searchGE : List Nat → Nat → Nat
  | [], _ => 0
  | x :: rest, hv => if hv ≤ x then 0 else searchGE rest hv + 1

/-- consistenthash.Map.Get: empty ring yields the empty string; otherwise
index the ring at `searchGE % len` (the `idx == len` wrap-around) and map
the virtual hash to its real peer (missing map entry = Go zero value ""). -/
def consistenthash.Map.Get (m : consistenthash.Map) (key : String) : String :=
  if m.ring.length = 0 then ""
  else
    (assocGet m.hashMap
      (m.ring.getD (searchGE m.ring (m.hash key) % m.ring.length) 0)).getD ""

/-- First ring element that is ≥ hv (on a sorted ring: the smallest such). -/
def firstGE : List Nat → Nat → Option Nat
  | [], _ => none
  | x :: rest, hv => if hv ≤ x then some x else firstGE rest hv

/-- The spec's description of ring lookup, stated in its own words for the
refinement comparison: empty ring gives ""; otherwise take the smallest
virtual-node hash ≥ hash(key) (the first such element of the sorted ring),
wrapping to ring index 0 when no such hash exists, and return the real peer
it maps to. -/
def specOwner (m : consistenthash.Map) (key : String) : String :=
  if m.ring = [] then ""
  else
    match firstGE m.ring (m.hash key) with
    | some x => (assocGet m.hashMap x).getD ""
    | none => (assocGet m.hashMap (m.ring.getD 0 0)).getD ""

theorem searchGE_of_firstGE_none :
    ∀ (ring : List Nat) (hv : Nat),
      firstGE ring hv = none → searchGE ring hv = ring.length
  | [], _, _ => rfl
  | x :: rest, hv, h => by
      rw [firstGE] at h
      by_cases hx : hv ≤ x
      · rw [if_pos hx] at h
        cases h
      · rw [if_neg hx] at h
        rw [searchGE, if_neg hx, searchGE_of_firstGE_none rest hv h, List.length_cons]

theorem searchGE_of_firstGE_some :
    ∀ (ring : List Nat) (hv x : Nat), firstGE ring hv = some x →
      searchGE ring hv < ring.length ∧ ring.getD (searchGE ring hv) 0 = x
  | [], hv, x, h => by simp [firstGE] at h
  | a :: rest, hv, x, h => by
      rw [firstGE] at h
      by_cases ha : hv ≤ a
      · rw [if_pos ha] at h
        cases h
        exact ⟨by simp [searchGE, ha], by simp [searchGE, ha]⟩
      · rw [if_neg ha] at h
        obtain ⟨h1, h2⟩ := searchGE_of_firstGE_some rest hv x h
        rw [searchGE, if_neg ha]
        refine ⟨by simpa [List.length_cons] using Nat.succ_lt_succ h1, ?_⟩
        simpa [List.getD_cons_succ] using h2

theorem firstGE_ge :
    ∀ (ring : List Nat) (hv x : Nat), firstGE ring hv = some x → hv ≤ x
  | [], hv, x, h => by simp [firstGE] at h
  | a :: rest, hv, x, h => by
      rw [firstGE] at h
      by_cases ha : hv ≤ a
      · rw [if_pos ha] at h
        cases h
        exact ha
      · rw [if_neg ha] at h
        exact firstGE_ge rest hv x h

theorem firstGE_min :
    ∀ (ring : List Nat) (hv x : Nat), ring.Sorted (· ≤ ·) →
      firstGE ring hv = some x → ∀ y ∈ ring, hv ≤ y → x ≤ y
  | [], hv, x, _, h => by simp [firstGE] at h
  | a :: rest, hv, x, hs, h => by
      rw [List.sorted_cons] at hs
      rw [firstGE] at h
      by_cases ha : hv ≤ a
      · rw [if_pos ha] at h
        cases h
        intro y hy hvy
        rcases List.mem_cons.mp hy with rfl | hy2
        · exact le_refl y
        · exact hs.1 y hy2
      · rw [if_neg ha] at h
        intro y hy hvy
        rcases List.mem_cons.mp hy with rfl | hy2
        · exact absurd hvy ha
        · exact firstGE_min rest hv x hs.2 h y hy2 hvy

/-- Value of an ASCII digit character. -/
def digitVal (c : Char) : Nat := c.toNat - 48

/-- The deterministic hash the spec's tests inject ("identity hash"): parse
the key as a decimal number, as Go's `strconv.Atoi` does on digit strings. -/
def decimalOf (s : String) : Nat := s.data.foldl (fun n c => n * 10 + digitVal c) 0

/-- Scenario S4 ring: replicas = 1, injected decimal hash, peers "6","4","2". -/
def s4Map : consistenthash.Map :=
  (consistenthash.New 1 decimalOf).Add ["6", "4", "2"]

/-- C5: Get on an empty ring returns ""; on a sorted ring Get returns the
real peer mapped by the smallest virtual-node hash ≥ hash(key), wrapping to
ring index 0 when no such hash exists (`specOwner`, the spec's description;
`firstGE` on a sorted ring is that smallest hash, per the third conjunct);
concretely with the injected decimal hash and replicas = 1, after adding
peers "6","4","2" the ring is [2,4,6] and Get("3") = "4", Get("5") = "6",
Get("7") = "2" (wrap). -/
theorem consistent_hash_get_spec :
    (∀ (m : consistenthash.Map) (key : String), m.ring = [] → m.Get key = "")
      ∧ (∀ (m : consistenthash.Map) (key : String),
          m.ring.Sorted (· ≤ ·) → m.Get key = specOwner m key)
      ∧ (∀ (m : consistenthash.Map) (key : String) (x : Nat),
          m.ring.Sorted (· ≤ ·) → firstGE m.ring (m.hash key) = some x →
            m.hash key ≤ x ∧ ∀ y ∈ m.ring, m.hash key ≤ y → x ≤ y)
      ∧ (s4Map.ring = [2, 4, 6]
          ∧ s4Map.Get "3" = "4" ∧ s4Map.Get "5" = "6" ∧ s4Map.Get "7" = "2") := by
  refine ⟨?_, ?_, ?_, by decide, by decide, by decide, by decide⟩
  · intro m key hr
    unfold consistenthash.Map.Get
    rw [if_pos (by rw [hr]; rfl)]
  · intro m key _
    unfold consistenthash.Map.Get specOwner
    by_cases hr : m.ring = []
    · rw [if_pos (by rw [hr]; rfl), if_pos hr]
    · have hlen : m.ring.length ≠ 0 := fun h => hr (List.length_eq_zero.mp h)
      rw [if_neg hlen, if_neg hr]
      cases hfg : firstGE m.ring (m.hash key) with
      | none =>
          rw [searchGE_of_firstGE_none m.ring _ hfg, Nat.mod_self]
      | some x =>
          obtain ⟨h1, h2⟩ := searchGE_of_firstGE_some m.ring _ x hfg
          rw [Nat.mod_eq_of_lt h1, h2]
  · intro m key x hs hfg
    exact ⟨firstGE_ge m.ring _ x hfg, firstGE_min m.ring _ x hs hfg⟩

/-- Witness for C5: the sorted-ring conjuncts applied to the concrete
scenario ring and a concrete key. -/
theorem consistent_hash_get_spec_witness :
    (s4Map.Get "3" = specOwner s4Map "3")
      ∧ (decimalOf "3" ≤ 4 ∧ ∀ y ∈ s4Map.ring, decimalOf "3" ≤ y → 4 ≤ y)
      ∧ ((consistenthash.New 1 decimalOf).Get "3" = "") :=
  ⟨consistent_hash_get_spec.2.1 s4Map "3" (by decide),
   consistent_hash_get_spec.2.2.1 s4Map "3" 4 (by decide) (by decide),
   consistent_hash_get_spec.1 (consistenthash.New 1 decimalOf) "3" rfl⟩

/-
Thread-safe cache shell (cache.go) and the Group orchestrator (the gocache
source).  The shells serialize access with a reader/writer lock (irrelevant
to the sequential model) and lazily build the engine on first add.  Only the
LRU shell is modelled: the LFU engine's source is not part of this
repository snapshot, and none of the claims here concern it.
-/

/-- LRUcache of cache.go: lazily initialised LRU engine plus its byte cap. -/
structure LRUcache where
  lru : Option (LRUCache ByteView)
  cacheBytes : Int
deriving DecidableEq

/-- add of cache.go: build the engine on first use with `lru.New(cacheBytes,
nil)`, then `Add(key, value, value.Expire())`. -/
def LRUcache.add (c : LRUcache) (key : String) (value : ByteView) : LRUcache :=
  match c.lru with
  | none =>
      { c with lru := some ((LRUCache.new c.cacheBytes).add ByteView.len key value value.expire) }
  | some eng =>
      { c with lru := some (eng.add ByteView.len key value value.expire) }

/-- get of cache.go: not-found when the engine is absent, otherwise the
engine's Get (which may remove an expired entry, hence the updated state). -/
def LRUcache.get (c : LRUcache) (key : String) (now : Nat) : Option ByteView × LRUcache :=
  match c.lru with
  | none => (none, c)
  | some eng =>
      ((eng.get ByteView.len key now).fst,
       { c with lru := some (eng.get ByteView.len key now).snd })

/-- KeyStats of the gocache source: first remote-fetch time and the atomic
remote-fetch counter (int64, here Nat: it starts at 1 and only grows). -/
structure KeyStats where
  firstGetTime : Nat
  remoteCnt : Nat
deriving Repr, DecidableEq

/-- maxMinuteRemoteQPS of the gocache source. -/
def maxMinuteRemoteQPS : Nat := 10

/-- Rounded minutes between two Unix-second instants:
`int64(math.Round(float64(delta) / 60))`.  For whole-second deltas the
float64 arithmetic is exact enough that rounding half away from zero equals
`(delta + 30) / 60` in integer arithmetic, which is the model. -/
def roundedMinutes (delta : Nat) : Nat := (delta + 30) / 60

/-- Group of the gocache source.  The singleflight loader is modelled
separately (see singleflight.Group below; GetCacheData takes the load
continuation as an argument), and the process-wide groups registry is not
needed by the claims.  `getter` records only whether a user loader was
supplied (its behaviour is passed explicitly where needed); `peers` records
whether a PeerPicker has been registered. -/
structure gocache.Group where
  name : String
  getter : Option Unit
  mainCache : LRUcache
  hotCache : LRUcache
  peers : Option Unit
  keys : List (String × KeyStats)
deriving DecidableEq

/-- populateCache of the gocache source. -/
def gocache.Group.populateCache (g : gocache.Group) (key : String) (value : ByteView) : Group :=
  { g with mainCache := g.mainCache.add key value }

/-- populateHotCache of the gocache source. -/
def gocache.Group.populateHotCache (g : gocache.Group) (key : String) (value : ByteView) : Group :=
  { g with hotCache := g.hotCache.add key value }

/-- getFromPeer of the gocache source.  `res` is the outcome of
`peer.Get(req, res)`; on success `resValue` plays the role of `res.Value`.
On a successful fetch: if the key already has stats, increment the counter,
compute `qps = cnt / max(1, round((now - firstGetTime)/60))`, and when
`qps ≥ maxMinuteRemoteQPS` store `ByteView{b: res.Value}` (NO clone) in the
hot cache and delete the stats entry; a key without stats gets a fresh
`KeyStats(now, 1)`.  The fetched value `ByteView{b: res.Value}` (zero
expiry) is returned. -/
def gocache.Group.getFromPeer (g : gocache.Group) (key : String) (res : Except String Slice)
    (now : Nat) : Except String ByteView × Group :=
  match res with
  | .error msg => (.error msg, g)
  | .ok resValue =>
      match assocGet g.keys key with
      | some stat =>
          if maxMinuteRemoteQPS ≤
              (stat.remoteCnt + 1) / max 1 (roundedMinutes (now - stat.firstGetTime)) then
            (.ok ⟨resValue, 0⟩,
             { (gocache.Group.populateHotCache
                  { g with keys := assocSet g.keys key ⟨stat.firstGetTime, stat.remoteCnt + 1⟩ }
                  key ⟨resValue, 0⟩) with
               keys := assocDel
                 (assocSet g.keys key ⟨stat.firstGetTime, stat.remoteCnt + 1⟩) key })
          else
            (.ok ⟨resValue, 0⟩,
             { g with keys := assocSet g.keys key ⟨stat.firstGetTime, stat.remoteCnt + 1⟩ })
      | none =>
          (.ok ⟨resValue, 0⟩, { g with keys := assocSet g.keys key ⟨now, 1⟩ })

/-- getLocally of the gocache source: call the user loader; on success wrap
the bytes in a view over `cloneBytes` (a FRESH allocation, identifier
`fresh`), populate the main cache then the hot cache, and return the view.
`loaded` is the loader's result; the final Nat is the next fresh
allocation identifier. -/
def gocache.Group.getLocally (g : gocache.Group) (key : String) (loaded : Except String Slice)
    (fresh : Nat) : Except String ByteView × gocache.Group × Nat :=
  match loaded with
  | .error msg => (.error msg, g, fresh)
  | .ok bytes =>
      (.ok ⟨cloneBytes fresh bytes, 0⟩,
       (g.populateCache key ⟨cloneBytes fresh bytes, 0⟩).populateHotCache
         key ⟨cloneBytes fresh bytes, 0⟩,
       fresh + 1)

/-- Which branch of GetCacheData produced the answer (mirrors the log lines
"hit hotCache" / "hit" / the load fall-through). -/
inductive ReadTier where
  | emptyKey
  | hotTier
  | mainTier
  | loadTier
deriving Repr, DecidableEq

/-- GetCacheData of the gocache source: reject the empty key, probe the hot
cache, probe the main cache, otherwise run the load path (singleflight around
peers/local load), which is passed as the continuation `load`. -/
def gocache.Group.GetCacheData (g : gocache.Group) (key : String) (now : Nat)
    (load : gocache.Group → Except String ByteView × gocache.Group) :
    Except String ByteView × gocache.Group × ReadTier :=
  if key = "" then (.error "key is required", g, .emptyKey)
  else
    match g.hotCache.get key now with
    | (some v, hc) => (.ok v, { g with hotCache := hc }, .hotTier)
    | (none, hc) =>
        match (LRUcache.get { g with hotCache := hc }.mainCache key now) with
        | (some v, mc) => (.ok v, { g with hotCache := hc, mainCache := mc }, .mainTier)
        | (none, mc) =>
            ((load { g with hotCache := hc, mainCache := mc }).fst,
             (load { g with hotCache := hc, mainCache := mc }).snd, .loadTier)

instance {ε α : Type} [DecidableEq ε] [DecidableEq α] : DecidableEq (Except ε α) := fun x y =>
  match x, y with
  | .error a, .error b =>
      decidable_of_iff (a = b) ⟨fun h => by rw [h], fun h => by injection h⟩
  | .error _, .ok _ => isFalse (fun h => Except.noConfusion h)
  | .ok _, .error _ => isFalse (fun h => Except.noConfusion h)
  | .ok a, .ok b =>
      decidable_of_iff (a = b) ⟨fun h => by rw [h], fun h => by injection h⟩

/-
Scenario S6 (claim C6): 11 successful remote fetches of "k" within one
minute, maxMinuteRemoteQPS = 10.  All fetches happen at clock 0 (well inside
one minute), and each delivers the same response slice.
-/

/-- The remote response payload for scenario S6. -/
def s6Value : Slice := ⟨0, [118]⟩

/-- A Group as NewGroup builds it (empty shells, no stats), cap 1024. -/
def s6Group0 : gocache.Group :=
  ⟨"scores", some (), ⟨none, 1024⟩, ⟨none, 1024⟩, none, []⟩

/-- One successful remote fetch of "k" at clock 0. -/
def s6Fetch (g : gocache.Group) : gocache.Group :=
  (gocache.Group.getFromPeer g "k" (.ok s6Value) 0).snd

/-- Group state after n successful remote fetches. -/
def s6After : Nat → gocache.Group
  | 0 => s6Group0
  | n + 1 => s6Fetch (s6After n)

/-- A load continuation that reports if the load path is reached. -/
def s6LoadStub : gocache.Group → Except String ByteView × gocache.Group :=
  fun g => (.error "loader reached", g)

/-- C6 counterexample: after the 11th successful fetch within one minute the
key "k" is NOT absent from keyStats.  Promotion fires already at the 10th
fetch (counter 10, qps = 10/1 ≥ 10), which stores the value in the hot cache
and deletes the stats entry; the 11th fetch then finds no stats entry and
re-creates KeyStats(now, 1), so after 11 fetches the stats entry for "k" is
present again (with counter 1). -/
theorem hot_promotion_counterexample :
    assocGet (s6After 11).keys "k" = some ⟨0, 1⟩
      ∧ ((s6After 11).hotCache.get "k" 0).fst = some ⟨s6Value, 0⟩ := by
  decide

/-- C6 amended: with maxMinuteRemoteQPS = 10, the hot promotion fires at the
10th successful remote fetch within one minute (value stored in the hot
cache, stats entry deleted); the 11th fetch re-creates the stats entry with
counter 1, so after 11 fetches the value is in the hot cache, "k" is again
present in keyStats, and the next GetCacheData("k") is served by the hot
cache (tier "hit hotCache") without reaching the load path. -/
theorem hot_promotion_amended :
    (assocGet (s6After 9).keys "k" = some ⟨0, 9⟩)
      ∧ (((s6After 9).hotCache.get "k" 0).fst = none)
      ∧ (assocGet (s6After 10).keys "k" = none)
      ∧ (((s6After 10).hotCache.get "k" 0).fst = some ⟨s6Value, 0⟩)
      ∧ (assocGet (s6After 11).keys "k" = some ⟨0, 1⟩)
      ∧ (((s6After 11).hotCache.get "k" 0).fst = some ⟨s6Value, 0⟩)
      ∧ ((gocache.Group.GetCacheData (s6After 11) "k" 0 s6LoadStub).fst
          = .ok ⟨s6Value, 0⟩)
      ∧ ((gocache.Group.GetCacheData (s6After 11) "k" 0 s6LoadStub).snd.snd
          = ReadTier.hotTier) := by
  decide

theorem shell_add_get_empty (key : String) (vb : Slice) (now : Nat) :
    ((LRUcache.add ⟨none, 0⟩ key ⟨vb, 0⟩).get key now).fst = some ⟨vb, 0⟩ := by
  simp [LRUcache.add, LRUcache.get, LRUCache.add, LRUCache.new, LRUCache.get,
    lookupEntry, evictLoop, ByteView.expire]

/-- C7 counterexample: a Group whose "k" stats counter stands at 9, an empty
hot cache, and a successful peer response whose slice has allocation
identifier 7.  The fetch promotes the value, and the ByteView placed in the
hot cache (and the one returned) carries the response slice ITSELF —
allocation identifier still 7, no fresh copy — because getFromPeer stores
`ByteView{b: res.Value}` without calling cloneBytes. -/
theorem defensive_copy_counterexample :
    ((gocache.Group.getFromPeer
        ⟨"g", some (), ⟨none, 0⟩, ⟨none, 0⟩, none, [("k", ⟨0, 9⟩)]⟩
        "k" (.ok ⟨7, [1, 2]⟩) 0).fst = .ok ⟨⟨7, [1, 2]⟩, 0⟩)
      ∧ (((gocache.Group.getFromPeer
            ⟨"g", some (), ⟨none, 0⟩, ⟨none, 0⟩, none, [("k", ⟨0, 9⟩)]⟩
            "k" (.ok ⟨7, [1, 2]⟩) 0).snd.hotCache.get "k" 0).fst
          = some ⟨⟨7, [1, 2]⟩, 0⟩) := by
  decide

/-- C7 amended: bytes received from the user loader ARE cloned before being
stored — getLocally wraps `cloneBytes(bytes)` (a fresh allocation, same
payload, different backing array) and places that view in both the main and
the hot cache — but bytes received from a remote peer are NOT cloned:
getFromPeer returns (and, on promotion, stores in the hot cache) a ByteView
holding the response slice itself. -/
theorem defensive_copy_amended :
    (∀ (g : gocache.Group) (key : String) (bytes : Slice) (fresh now : Nat),
      g.mainCache = ⟨none, 0⟩ → g.hotCache = ⟨none, 0⟩ → bytes.sid < fresh →
        (g.getLocally key (.ok bytes) fresh).fst
            = .ok ⟨⟨fresh, bytes.data⟩, 0⟩
          ∧ (((g.getLocally key (.ok bytes) fresh).snd.fst.mainCache.get key now).fst
              = some ⟨⟨fresh, bytes.data⟩, 0⟩)
          ∧ (((g.getLocally key (.ok bytes) fresh).snd.fst.hotCache.get key now).fst
              = some ⟨⟨fresh, bytes.data⟩, 0⟩)
          ∧ (⟨fresh, bytes.data⟩ : Slice).sid ≠ bytes.sid)
      ∧ (∀ (g : gocache.Group) (key : String) (v : Slice) (now : Nat),
          (g.getFromPeer key (.ok v) now).fst = .ok ⟨v, 0⟩) := by
  constructor
  · intro g key bytes fresh now hmain hhot hfresh
    refine ⟨rfl, ?_, ?_, ?_⟩
    · show (((g.populateCache key ⟨cloneBytes fresh bytes, 0⟩).populateHotCache
          key ⟨cloneBytes fresh bytes, 0⟩).mainCache.get key now).fst
        = some ⟨⟨fresh, bytes.data⟩, 0⟩
      rw [gocache.Group.populateHotCache, gocache.Group.populateCache]
      simp only
      rw [hmain]
      exact shell_add_get_empty key ⟨fresh, bytes.data⟩ now
    · show (((g.populateCache key ⟨cloneBytes fresh bytes, 0⟩).populateHotCache
          key ⟨cloneBytes fresh bytes, 0⟩).hotCache.get key now).fst
        = some ⟨⟨fresh, bytes.data⟩, 0⟩
      rw [gocache.Group.populateHotCache, gocache.Group.populateCache]
      simp only
      rw [hhot]
      exact shell_add_get_empty key ⟨fresh, bytes.data⟩ now
    · show fresh ≠ bytes.sid
      omega
  · intro g key v now
    rw [gocache.Group.getFromPeer]
    cases hs : assocGet g.keys key with
    | none => rfl
    | some stat => split <;> first | rfl | (split <;> rfl)

/-- Witness for C7 (the amended statement) at a concrete Group, key, payload
and fresh identifier. -/
theorem defensive_copy_amended_witness :
    ((gocache.Group.getLocally
        ⟨"g", some (), ⟨none, 0⟩, ⟨none, 0⟩, none, []⟩ "k" (.ok ⟨3, [9]⟩) 5).fst
        = .ok ⟨⟨5, [9]⟩, 0⟩)
      ∧ (((gocache.Group.getLocally
            ⟨"g", some (), ⟨none, 0⟩, ⟨none, 0⟩, none, []⟩ "k"
            (.ok ⟨3, [9]⟩) 5).snd.fst.mainCache.get "k" 2).fst = some ⟨⟨5, [9]⟩, 0⟩)
      ∧ (((gocache.Group.getLocally
            ⟨"g", some (), ⟨none, 0⟩, ⟨none, 0⟩, none, []⟩ "k"
            (.ok ⟨3, [9]⟩) 5).snd.fst.hotCache.get "k" 2).fst = some ⟨⟨5, [9]⟩, 0⟩)
      ∧ (⟨5, [9]⟩ : Slice).sid ≠ (⟨3, [9]⟩ : Slice).sid :=
  defensive_copy_amended.1
    ⟨"g", some (), ⟨none, 0⟩, ⟨none, 0⟩, none, []⟩ "k" ⟨3, [9]⟩ 5 2
    rfl rfl (by decide)

/-
Single-flight coalescer (the singleflight source).  The model is sequential:
one Do call runs to completion.  `call` holds the delivered
`(value, error)`; Go installs the record (under the mutex) before running
`fn` and fills it afterwards, so in the sequential model the record carrying
fn's result is installed, waiters would read it, and the leader deletes it
before returning.  Errors are `Option String` (`none` = nil error).
-/

/-- call of the singleflight source: the value and error a Do delivers. -/
structure singleflight.call (α : Type) where
  val : α
  err : Option String
deriving Repr, DecidableEq

/-- singleflight.Group: the map of in-flight calls keyed by request key. -/
structure singleflight.Group (α : Type) where
  m : List (String × singleflight.call α)
deriving Repr, DecidableEq

/-- Do of the singleflight source, sequentially: if a call for the key is in
flight, return its result and leave the map unchanged (the waiter path);
otherwise install the in-flight record, run fn, deliver its result, delete
the record, and return the result (the leader path).  The intermediate map
`assocSet g.m key c` is the state in which fn runs and waiters are released;
the leader deletes the record from it before returning. -/
def singleflight.Group.Do {α : Type} (g : singleflight.Group α) (key : String)
    (fn : Unit → α × Option String) : (α × Option String) × singleflight.Group α :=
  match assocGet g.m key with
  | some c => ((c.val, c.err), g)
  | none =>
      ((((fn ()).fst, (fn ()).snd)),
       ⟨assocDel (assocSet g.m key ⟨(fn ()).fst, (fn ()).snd⟩) key⟩)

/-- C8: when no call for k is in flight, Do(k, fn) runs fn (the leader); the
in-flight record holding fn's result is present in the intermediate map in
which the load executes and waiters are released, and it is deleted before
the leader's Do returns (absent from the returned map); consequently a later
Do(k, fn2) on the returned state runs fn2 afresh and returns ITS result, not
anything cached from the earlier call. -/
theorem singleflight_do_lifecycle {α : Type} (g : singleflight.Group α)
    (key : String) (fn fn2 : Unit → α × Option String)
    (h : assocGet g.m key = none) :
    ((g.Do key fn).fst = fn ())
      ∧ (assocGet (assocSet g.m key ⟨(fn ()).fst, (fn ()).snd⟩) key
          = some ⟨(fn ()).fst, (fn ()).snd⟩)
      ∧ (assocGet (g.Do key fn).snd.m key = none)
      ∧ (((g.Do key fn).snd.Do key fn2).fst = fn2 ()) := by
  have h1 : g.Do key fn
      = ((fn ()), ⟨assocDel (assocSet g.m key ⟨(fn ()).fst, (fn ()).snd⟩) key⟩) := by
    rw [singleflight.Group.Do, h]
  have h2 : assocGet (g.Do key fn).snd.m key = none := by
    rw [h1]
    exact assocGet_assocDel_self _ key
  refine ⟨by rw [h1], assocGet_assocSet_self g.m key _, h2, ?_⟩
  rw [singleflight.Group.Do, h2]

/-- Witness for C8 on a concrete empty group and counting functions. -/
theorem singleflight_do_lifecycle_witness :
    (((⟨[]⟩ : singleflight.Group Nat).Do "k" (fun _ => (42, none))).fst = (42, none))
      ∧ (assocGet (assocSet ([] : List (String × singleflight.call Nat)) "k" ⟨42, none⟩) "k"
          = some ⟨42, none⟩)
      ∧ (assocGet ((⟨[]⟩ : singleflight.Group Nat).Do "k" (fun _ => (42, none))).snd.m "k" = none)
      ∧ ((((⟨[]⟩ : singleflight.Group Nat).Do "k" (fun _ => (42, none))).snd.Do "k"
            (fun _ => (7, some "boom"))).fst = (7, some "boom")) :=
  singleflight_do_lifecycle ⟨[]⟩ "k" (fun _ => (42, none)) (fun _ => (7, some "boom")) rfl

/-
Error-handling model (claim C9).  Go has two distinct failure channels: a
panic aborts the process (unless recovered; nothing in this repository
recovers), while an error VALUE is returned to the caller.  `Outcome` keeps
them distinct: `panicked` models a panic/abort, `errR` models `return err`.
-/

/-- Result of a Go call that can panic or return an error. -/
inductive Outcome (α : Type) where
  | ok (a : α)
  | errR (msg : String)
  | panicked (msg : String)
deriving DecidableEq

/-- NewGroup of the gocache source: panics on a nil Getter, otherwise builds
the Group (empty shells with the given byte cap, no peers, empty stats) and
registers it in the process-wide map (registration not modelled).  The lfu
branch of the CacheType dispatch is not modelled (the LFU engine's source is
outside this snapshot); the shells below are the "lru" ones, which is
irrelevant to the panic behaviour this claim concerns. -/
def NewGroup (name : String) (cacheBytes : Int) (cacheType : String)
    (getter : Option Unit) : Outcome gocache.Group :=
  match getter with
  | none => .panicked "nil Getter"
  | some gt => .ok ⟨name, some gt, ⟨none, cacheBytes⟩, ⟨none, cacheBytes⟩, none, []⟩

/-- RegisterPeers of the gocache source: panics when a PeerPicker is already
registered, otherwise records it. -/
def gocache.Group.RegisterPeers (g : gocache.Group) (p : Unit) : Outcome gocache.Group :=
  match g.peers with
  | some _ => .panicked "RegisterPeerPicker called more than once"
  | none => .ok { g with peers := some p }

/-- Client of client.go: the per-peer RPC client (service name only; the
etcd dial and the RPC itself are out of scope). -/
structure Client where
  baseURL : String
deriving Repr, DecidableEq

/-- Server of grpc.go: own address, running status, consistent-hash ring of
peers, and the per-peer clients keyed by address.  The listener, the gRPC
registration and the stop channel are I/O and are not modelled. -/
structure Server where
  self : String
  status : Bool
  peers : consistenthash.Map
  clients : List (String × Client)

/-- Start of grpc.go, restricted to its state logic: a second Start on a
running server RETURNS the error "server already started" (it does not
panic); otherwise the status becomes running.  (Port binding, service
registration and the serve loop are I/O, outside the model.) -/
def Server.Start (s : Server) : Outcome Server :=
  if s.status = true then .errR "server already started"
  else .ok { s with status := true }

/-- True exactly when the outcome is a panic (process abort). -/
def Outcome.isAbort {α : Type} : Outcome α → Bool
  | .panicked _ => true
  | _ => false

/-- C9 counterexample: a second Start on a running server does NOT abort the
process.  grpc.go returns `fmt.Errorf("server already started")` from the
call; here a running server's Start yields the returned error, not a panic. -/
theorem config_error_counterexample :
    Server.Start ⟨"localhost:9999", true, consistenthash.New 50 decimalOf, []⟩
        = Outcome.errR "server already started"
      ∧ (Server.Start ⟨"localhost:9999", true, consistenthash.New 50 decimalOf, []⟩).isAbort
          = false :=
  ⟨rfl, rfl⟩

/-- C9 amended: NewGroup with a nil loader and a second RegisterPeers on the
same Group panic (abort the process at construction time, not from the read
path); a second Start on an already-running server instead RETURNS the error
"server already started" from the call — it does not abort the process. -/
theorem config_error_amended :
    (∀ (name : String) (cacheBytes : Int) (cacheType : String),
        NewGroup name cacheBytes cacheType none = .panicked "nil Getter")
      ∧ (∀ (g g1 : gocache.Group) (p q : Unit),
          g.RegisterPeers p = .ok g1 →
            g1.RegisterPeers q = .panicked "RegisterPeerPicker called more than once")
      ∧ (∀ s : Server, s.status = true →
          s.Start = .errR "server already started" ∧ s.Start.isAbort = false) := by
  refine ⟨fun name cb ct => rfl, ?_, ?_⟩
  · intro g g1 p q h
    rw [gocache.Group.RegisterPeers] at h
    cases hp : g.peers with
    | some _ =>
        rw [hp] at h
        cases h
    | none =>
        rw [hp] at h
        injection h with h2
        subst h2
        rfl
  · intro s hs
    refine ⟨?_, ?_⟩
    · rw [Server.Start, if_pos hs]
    · rw [Server.Start, if_pos hs]
      rfl

/-- Witness for C9 (the amended statement) at concrete inputs. -/
theorem config_error_amended_witness :
    (NewGroup "scores" 1024 "lru" none = .panicked "nil Getter")
      ∧ (gocache.Group.RegisterPeers
            ⟨"g", some (), ⟨none, 0⟩, ⟨none, 0⟩, some (), []⟩ ()
          = .panicked "RegisterPeerPicker called more than once")
      ∧ (Server.Start ⟨"localhost:9998", true, consistenthash.New 50 decimalOf, []⟩
            = .errR "server already started"
          ∧ (Server.Start ⟨"localhost:9998", true, consistenthash.New 50 decimalOf, []⟩).isAbort
              = false) :=
  ⟨config_error_amended.1 "scores" 1024 "lru",
   config_error_amended.2.1 ⟨"g", some (), ⟨none, 0⟩, ⟨none, 0⟩, none, []⟩
     ⟨"g", some (), ⟨none, 0⟩, ⟨none, 0⟩, some (), []⟩ () () rfl,
   config_error_amended.2.2 ⟨"localhost:9998", true, consistenthash.New 50 decimalOf, []⟩ rfl⟩

/-- PickPeer of grpc.go: resolve the owner address from the ring; if it is
this server itself, report (nil, false) so the caller loads locally;
otherwise return the client stored for that address — which is Go's nil zero
value (`none`) when the clients map has no entry for it — together with
ok = true. -/
def Server.PickPeer (s : Server) (key : String) : Option Client × Bool :=
  if s.peers.Get key = s.self then (none, false)
  else (assocGet s.clients (s.peers.Get key), true)

/-- C10: whenever the ring maps a key to an address different from self that
has no entry in the clients map, PickPeer returns ok = true with a nil
client; in particular, on an empty ring (ring Get returns "") with a
non-empty self address and no client under "", PickPeer answers
(nil, true) — a "remote peer chosen" answer with no usable client. -/
theorem pickpeer_nil_client :
    (∀ (s : Server) (key : String),
        s.peers.Get key ≠ s.self →
        assocGet s.clients (s.peers.Get key) = none →
        s.PickPeer key = (none, true))
      ∧ (∀ (s : Server) (key : String),
          s.peers.ring = [] → s.self ≠ "" → assocGet s.clients "" = none →
          s.PickPeer key = (none, true)) := by
  constructor
  · intro s key h1 h2
    rw [Server.PickPeer, if_neg h1, h2]
  · intro s key hr hself hcl
    have hg : s.peers.Get key = "" := by
      rw [consistenthash.Map.Get, if_pos (by rw [hr]; rfl)]
    rw [Server.PickPeer, if_neg (by rw [hg]; exact fun he => hself he.symm), hg, hcl]

/-- Witness for C10: a freshly constructed server (empty ring as after
NewServer, no clients) picks a nil client with ok = true. -/
theorem pickpeer_nil_client_witness :
    Server.PickPeer ⟨"localhost:8001", false, consistenthash.New 50 decimalOf, []⟩ "Tom"
      = (none, true) :=
  pickpeer_nil_client.2 ⟨"localhost:8001", false, consistenthash.New 50 decimalOf, []⟩
    "Tom" rfl (by decide) rfl
